import Mathlib

/-!
Shallow embedding of the fintech review-analysis pipeline
(`scripts/preprocessor.py`, `scripts/thematic_analyzer.py`,
`scripts/sentiment_analyzer.py`, `scripts/database_handler.py`,
`scripts/db_verifier.py`, `main.py`) together with proofs settling the
specification claims. Text is modelled as `List Char`, Python floats as
`ℚ`, pandas null values as `Option`, and stateful behaviour as explicit
data flow.
-/

/-! ## Text normalizer: `clean_text` in `scripts/preprocessor.py`

The function is
`re.sub(r'\s+', ' ', t)` then `re.sub(r'[^\w\s.,!?]', '', t)` then
`t.lower().strip()`.  We model the ASCII fragment of the Python character
classes `\s` and `\w` and of `str.lower`.
-/

/-- ASCII fragment of the Python regex class `\s`
(space, tab, newline, carriage return, vertical tab, form feed). -/
def pySpace (c : Char) : Bool :=
  decide (c.toNat = 32 ∨ c.toNat = 9 ∨ c.toNat = 10 ∨ c.toNat = 13 ∨
    c.toNat = 11 ∨ c.toNat = 12)

/-- ASCII fragment of the Python regex class `\w`: letters, digits and
underscore. -/
def pyWord (c : Char) : Bool :=
  decide ((97 ≤ c.toNat ∧ c.toNat ≤ 122) ∨ (65 ≤ c.toNat ∧ c.toNat ≤ 90) ∨
    (48 ≤ c.toNat ∧ c.toNat ≤ 57) ∨ c.toNat = 95)

/-- The punctuation kept by `re.sub(r'[^\w\s.,!?]', '', text)`:
`.`, `,`, `!` and `?`. -/
def keepPunct (c : Char) : Bool :=
  decide (c.toNat = 46 ∨ c.toNat = 44 ∨ c.toNat = 33 ∨ c.toNat = 63)

/-- A character surviving the character-filtering step of `clean_text`. -/
def keptChar (c : Char) : Bool :=
  pyWord c || pySpace c || keepPunct c

/-- `re.sub(r'\s+', ' ', text)`: every maximal run of whitespace characters
is replaced by a single space. -/
def collapseWS : List Char → List Char
  | [] => []
  | [c] => if pySpace c then [' '] else [c]
  | c :: d :: cs =>
    if pySpace c && pySpace d then collapseWS (d :: cs)
    else (if pySpace c then ' ' else c) :: collapseWS (d :: cs)

/-- ASCII fragment of Python `str.lower`. -/
def pyLower (c : Char) : Char :=
  if 65 ≤ c.toNat ∧ c.toNat ≤ 90 then Char.ofNat (c.toNat + 32) else c

/-- Python `str.strip`: remove leading and trailing whitespace. -/
def stripWS (l : List Char) : List Char :=
  ((l.dropWhile pySpace).reverse.dropWhile pySpace).reverse

/-- `clean_text` from `scripts/preprocessor.py` on string input: collapse
whitespace runs, drop every character outside `\w`, `\s` and `.,!?`,
lowercase, then strip.  (The `pd.isna` branch only concerns non-string
input and is outside this model.) -/
def clean_text (t : List Char) : List Char :=
  stripWS (((collapseWS t).filter keptChar).map pyLower)

/-- `True` when the list has no two adjacent whitespace characters
(the "no run of two or more consecutive whitespace" property of the spec). -/
def noRunWS : List Char → Bool
  | [] => true
  | [_] => true
  | a :: b :: cs => !(pySpace a && pySpace b) && noRunWS (b :: cs)

/-- The character set named by the spec for claim C6: letters, digits,
whitespace and the four kept punctuation marks — the underscore is *not*
in this set, while Python `\w` does keep it. -/
def specC6Char (c : Char) : Bool :=
  decide ((97 ≤ c.toNat ∧ c.toNat ≤ 122) ∨ (65 ≤ c.toNat ∧ c.toNat ≤ 90) ∨
    (48 ≤ c.toNat ∧ c.toNat ≤ 57)) || pySpace c || keepPunct c

theorem toNat_ofNat_valid (n : Nat) (h : n < 55296) : (Char.ofNat n).toNat = n := by
  rw [Char.ofNat, dif_pos (Or.inl h)]
  rfl

theorem charToNat_inj {c d : Char} (h : c.toNat = d.toNat) : c = d := by
  have := congrArg Char.ofNat h
  rwa [Char.ofNat_toNat, Char.ofNat_toNat] at this

theorem pyLower_toNat (c : Char) :
    (pyLower c).toNat = if 65 ≤ c.toNat ∧ c.toNat ≤ 90 then c.toNat + 32 else c.toNat := by
  unfold pyLower
  split
  · next h => exact toNat_ofNat_valid _ (by omega)
  · rfl

theorem pyLower_pyLower (c : Char) : pyLower (pyLower c) = pyLower c := by
  apply charToNat_inj
  rw [pyLower_toNat, pyLower_toNat]
  split_ifs <;> omega

theorem pySpace_pyLower (c : Char) : pySpace (pyLower c) = pySpace c := by
  simp only [pySpace]
  rw [pyLower_toNat]
  split_ifs with h
  · exact decide_eq_decide.mpr (by omega)
  · rfl

theorem keptChar_pyLower {c : Char} (h : keptChar c = true) : keptChar (pyLower c) = true := by
  simp only [keptChar, pyWord, pySpace, keepPunct, Bool.or_eq_true, decide_eq_true_eq] at h ⊢
  rw [pyLower_toNat]
  split_ifs with hc
  · omega
  · exact h

theorem keptChar_space : keptChar ' ' = true := by decide

theorem pyLower_space : pyLower ' ' = ' ' := by decide

theorem pySpace_space : pySpace ' ' = true := by decide

theorem mem_collapseWS {c : Char} :
    ∀ {l : List Char}, c ∈ collapseWS l → c = ' ' ∨ (c ∈ l ∧ pySpace c = false) := by
  intro l
  induction l using collapseWS.induct with
  | case1 => intro h; simp [collapseWS] at h
  | case2 d hd =>
    intro h
    simp only [collapseWS, if_pos hd, List.mem_singleton] at h
    exact Or.inl h
  | case3 d hd =>
    intro h
    simp only [collapseWS, if_neg hd, List.mem_singleton] at h
    subst h
    exact Or.inr ⟨List.mem_singleton.mpr rfl, by simpa using hd⟩
  | case4 a d cs hsp ih =>
    intro h
    simp only [collapseWS, if_pos hsp] at h
    rcases ih h with h1 | ⟨h2, h3⟩
    · exact Or.inl h1
    · exact Or.inr ⟨List.mem_cons_of_mem _ h2, h3⟩
  | case5 a d cs hsp ih =>
    intro h
    simp only [collapseWS, if_neg hsp] at h
    rcases List.mem_cons.mp h with h1 | h1
    · by_cases ha : pySpace a = true
      · rw [if_pos ha] at h1
        exact Or.inl h1
      · rw [if_neg ha] at h1
        exact Or.inr ⟨h1 ▸ List.mem_cons_self a _, h1 ▸ (by simpa using ha)⟩
    · rcases ih h1 with h2 | ⟨h2, h3⟩
      · exact Or.inl h2
      · exact Or.inr ⟨List.mem_cons_of_mem _ h2, h3⟩

theorem collapseWS_head? :
    ∀ {l : List Char}, l ≠ [] →
      (collapseWS l).head? = l.head?.map (fun c => if pySpace c then ' ' else c) := by
  intro l
  induction l using collapseWS.induct with
  | case1 => intro h; exact absurd rfl h
  | case2 d hd => intro _; simp [collapseWS, hd]
  | case3 d hd => intro _; simp [collapseWS, hd]
  | case4 a d cs hsp ih =>
    intro _
    obtain ⟨h1, h2⟩ : pySpace a = true ∧ pySpace d = true := by simpa using hsp
    simp only [collapseWS, if_pos hsp]
    rw [ih (by simp)]
    simp [h1, h2]
  | case5 a d cs hsp ih =>
    intro _
    simp only [collapseWS, if_neg hsp, List.head?_cons, Option.map_some]
    rfl

theorem collapseWS_ne_nil {l : List Char} (h : l ≠ []) : collapseWS l ≠ [] := by
  intro hnil
  have := collapseWS_head? h
  rw [hnil] at this
  cases l with
  | nil => exact h rfl
  | cons a as => simp at this

theorem collapseWS_getLast? :
    ∀ {l : List Char}, l ≠ [] →
      (collapseWS l).getLast? = l.getLast?.map (fun c => if pySpace c then ' ' else c) := by
  intro l
  induction l using collapseWS.induct with
  | case1 => intro h; exact absurd rfl h
  | case2 d hd => intro _; simp [collapseWS, hd]
  | case3 d hd => intro _; simp [collapseWS, hd]
  | case4 a d cs hsp ih =>
    intro _
    simp only [collapseWS, if_pos hsp]
    rw [ih (by simp), List.getLast?_cons_cons]
  | case5 a d cs hsp ih =>
    intro _
    simp only [collapseWS, if_neg hsp]
    cases hL : collapseWS (d :: cs) with
    | nil => exact absurd hL (collapseWS_ne_nil (by simp))
    | cons y ys =>
      rw [List.getLast?_cons_cons, ← hL, ih (by simp), List.getLast?_cons_cons]

theorem noRunWS_cons {x : Char} {l : List Char} (h : noRunWS l = true)
    (h2 : ∀ y, l.head? = some y → (pySpace x && pySpace y) = false) :
    noRunWS (x :: l) = true := by
  cases l with
  | nil => rfl
  | cons y ys =>
    simp only [noRunWS, Bool.and_eq_true, Bool.not_eq_true']
    exact ⟨h2 y rfl, h⟩

theorem noRunWS_collapseWS : ∀ (l : List Char), noRunWS (collapseWS l) = true := by
  intro l
  induction l using collapseWS.induct with
  | case1 => rfl
  | case2 d hd => simp [collapseWS, hd, noRunWS]
  | case3 d hd => simp [collapseWS, hd, noRunWS]
  | case4 a d cs hsp ih => simpa only [collapseWS, if_pos hsp] using ih
  | case5 a d cs hsp ih =>
    simp only [collapseWS, if_neg hsp]
    apply noRunWS_cons ih
    intro y hy
    by_cases ha : pySpace a = true
    · have hd : pySpace d = false := by
        rcases Bool.eq_false_or_eq_true (pySpace d) with h | h
        · exact absurd (by simp [ha, h]) hsp
        · exact h
      rw [collapseWS_head? (by simp)] at hy
      simp [hd] at hy
      subst hy
      simp [ha, hd]
    · simp [ha]

theorem collapseWS_eq_self :
    ∀ {l : List Char}, (∀ c ∈ l, pySpace c = true → c = ' ') → noRunWS l = true →
      collapseWS l = l := by
  intro l
  induction l using collapseWS.induct with
  | case1 => intro _ _; rfl
  | case2 d hd =>
    intro h1 _
    simp [collapseWS, hd, h1 d (by simp) hd]
  | case3 d hd => intro _ _; simp [collapseWS, hd]
  | case4 a d cs hsp ih =>
    intro _ h2
    obtain ⟨ha, hd⟩ : pySpace a = true ∧ pySpace d = true := by simpa using hsp
    exfalso
    simp [noRunWS, ha, hd] at h2
  | case5 a d cs hsp ih =>
    intro h1 h2
    simp only [collapseWS, if_neg hsp]
    have htail : collapseWS (d :: cs) = d :: cs := by
      apply ih
      · intro c hc hsc
        exact h1 c (List.mem_cons_of_mem a hc) hsc
      · simp only [noRunWS, Bool.and_eq_true] at h2
        exact h2.2
    rw [htail]
    by_cases ha : pySpace a = true
    · rw [if_pos ha, h1 a (by simp) ha]
    · rw [if_neg ha]

theorem dropWhile_head_not {p : Char → Bool} :
    ∀ {l : List Char} {c : Char}, (l.dropWhile p).head? = some c → p c = false := by
  intro l
  induction l with
  | nil => intro c h; simp at h
  | cons a as ih =>
    intro c h
    rw [List.dropWhile_cons] at h
    split at h
    · exact ih h
    · next ha =>
      simp at h
      rw [← h]
      simpa using ha

theorem dropWhile_eq_self {p : Char → Bool} {l : List Char}
    (h : ∀ c, l.head? = some c → p c = false) : l.dropWhile p = l := by
  cases l with
  | nil => rfl
  | cons a as =>
    rw [List.dropWhile_cons, if_neg]
    simp [h a rfl]

theorem mem_stripWS {c : Char} {l : List Char} (h : c ∈ stripWS l) : c ∈ l := by
  unfold stripWS at h
  rw [List.mem_reverse] at h
  have h2 := (List.dropWhile_sublist pySpace).subset h
  rw [List.mem_reverse] at h2
  exact (List.dropWhile_sublist pySpace).subset h2

theorem suffix_getLast? {t l : List Char} (hs : t <:+ l) (hne : t ≠ []) :
    t.getLast? = l.getLast? := by
  obtain ⟨s, rfl⟩ := hs
  rw [List.getLast?_append_of_ne_nil s hne]

theorem stripWS_head? {l : List Char} {c : Char}
    (h : (stripWS l).head? = some c) : pySpace c = false := by
  unfold stripWS at h
  rw [List.head?_reverse] at h
  have hne : ((l.dropWhile pySpace).reverse.dropWhile pySpace) ≠ [] := by
    intro hnil
    rw [hnil] at h
    simp at h
  rw [suffix_getLast? (List.dropWhile_suffix pySpace) hne, List.getLast?_reverse] at h
  exact dropWhile_head_not h

theorem stripWS_getLast? {l : List Char} {c : Char}
    (h : (stripWS l).getLast? = some c) : pySpace c = false := by
  unfold stripWS at h
  rw [List.getLast?_reverse] at h
  exact dropWhile_head_not h

theorem stripWS_eq_self {l : List Char}
    (h1 : ∀ c, l.head? = some c → pySpace c = false)
    (h2 : ∀ c, l.getLast? = some c → pySpace c = false) : stripWS l = l := by
  unfold stripWS
  rw [dropWhile_eq_self h1, dropWhile_eq_self, List.reverse_reverse]
  intro c hc
  rw [List.head?_reverse] at hc
  exact h2 c hc

def wsNormal (l : List Char) : Prop :=
  (∀ c ∈ l, keptChar c = true ∧ pyLower c = c ∧ (pySpace c = true → c = ' ')) ∧
  (∀ c, l.head? = some c → pySpace c = false) ∧
  (∀ c, l.getLast? = some c → pySpace c = false)

theorem wsNormal_clean_text (t : List Char) : wsNormal (clean_text t) := by
  refine ⟨?_, fun c h => stripWS_head? h, fun c h => stripWS_getLast? h⟩
  intro c hc
  have hc2 := mem_stripWS hc
  rw [List.mem_map] at hc2
  obtain ⟨b, hb, rfl⟩ := hc2
  rw [List.mem_filter] at hb
  obtain ⟨hbmem, hbkept⟩ := hb
  refine ⟨keptChar_pyLower hbkept, pyLower_pyLower b, ?_⟩
  intro hsp
  rw [pySpace_pyLower] at hsp
  rcases mem_collapseWS hbmem with h1 | ⟨_, h2⟩
  · rw [h1, pyLower_space]
  · rw [hsp] at h2; exact absurd h2 (by simp)

theorem clean_text_of_wsNormal {l : List Char} (h : wsNormal l) :
    clean_text l = collapseWS l := by
  obtain ⟨hmem, hhead, hlast⟩ := h
  unfold clean_text
  have hall : ∀ c ∈ collapseWS l, keptChar c = true ∧ pyLower c = c := by
    intro c hc
    rcases mem_collapseWS hc with h1 | ⟨h2, _⟩
    · rw [h1]; exact ⟨keptChar_space, pyLower_space⟩
    · exact ⟨(hmem c h2).1, (hmem c h2).2.1⟩
  rw [List.filter_eq_self.mpr (fun c hc => (hall c hc).1)]
  have hmap : (collapseWS l).map pyLower = collapseWS l := by
    conv_rhs => rw [← List.map_id (collapseWS l)]
    exact List.map_congr_left (fun c hc => (hall c hc).2)
  rw [hmap]
  apply stripWS_eq_self
  · intro c hc
    cases l with
    | nil => simp [collapseWS] at hc
    | cons a as =>
      rw [collapseWS_head? (by simp)] at hc
      have ha : pySpace a = false := hhead a rfl
      simp [ha] at hc
      rw [← hc]
      exact ha
  · intro c hc
    cases l with
    | nil => simp [collapseWS] at hc
    | cons a as =>
      rw [collapseWS_getLast? (by simp)] at hc
      obtain ⟨b, hb1, hb2⟩ := Option.map_eq_some'.mp hc
      have hbns : pySpace b = false := hlast b hb1
      rw [hbns] at hb2
      simp at hb2
      rw [← hb2]
      exact hbns

theorem wsNormal_collapseWS {l : List Char} (h : wsNormal l) :
    wsNormal (collapseWS l) := by
  obtain ⟨hmem, hhead, hlast⟩ := h
  refine ⟨?_, ?_, ?_⟩
  · intro c hc
    rcases mem_collapseWS hc with h1 | ⟨h2, _⟩
    · rw [h1]
      exact ⟨keptChar_space, pyLower_space, fun _ => rfl⟩
    · exact hmem c h2
  · intro c hc
    cases l with
    | nil => simp [collapseWS] at hc
    | cons a as =>
      rw [collapseWS_head? (by simp)] at hc
      have ha : pySpace a = false := hhead a rfl
      simp [ha] at hc
      rw [← hc]
      exact ha
  · intro c hc
    cases l with
    | nil => simp [collapseWS] at hc
    | cons a as =>
      rw [collapseWS_getLast? (by simp)] at hc
      obtain ⟨b, hb1, hb2⟩ := Option.map_eq_some'.mp hc
      have hbns : pySpace b = false := hlast b hb1
      rw [hbns] at hb2
      simp at hb2
      rw [← hb2]
      exact hbns

theorem clean_text_fix {l : List Char} (h : wsNormal l) (h2 : noRunWS l = true) :
    clean_text l = l := by
  rw [clean_text_of_wsNormal h]
  exact collapseWS_eq_self (fun c hc hsp => ((h.1 c hc).2.2 hsp)) h2

theorem clean_text_stabilizes (t : List Char) :
    clean_text (clean_text (clean_text t)) = clean_text (clean_text t) := by
  have h1 : wsNormal (clean_text t) := wsNormal_clean_text t
  have h2 : clean_text (clean_text t) = collapseWS (clean_text t) :=
    clean_text_of_wsNormal h1
  apply clean_text_fix
  · rw [h2]; exact wsNormal_collapseWS h1
  · rw [h2]; exact noRunWS_collapseWS (clean_text t)

/-- Claim C5 counterexample: `clean_text` is not idempotent.  On `"a @ b"`
the `@` is removed *after* whitespace collapsing, leaving the two spaces
around it adjacent; a second application collapses them. -/
theorem c5_clean_text_not_idempotent :
    clean_text (clean_text ['a', ' ', '@', ' ', 'b']) ≠
      clean_text ['a', ' ', '@', ' ', 'b'] := by decide

/-- Claim C5 (amended): `clean_text` stabilizes after two applications —
for every input `t`, `clean_text (clean_text t)` is a fixed point of
`clean_text`. -/
theorem c5_clean_text_twice_is_fixpoint (t : List Char) :
    clean_text (clean_text (clean_text t)) = clean_text (clean_text t) :=
  clean_text_stabilizes t

/-- Claim C6 counterexample: on input `"a_ @ b"` the output of `clean_text`
keeps the underscore (not a letter, digit, whitespace or kept punctuation
mark) and contains two consecutive spaces, refuting both conjuncts of the
claim at this input. -/
theorem c6_clean_text_charset_violated :
    ¬((clean_text ['a', '_', ' ', '@', ' ', 'b']).all specC6Char = true ∧
      noRunWS (clean_text ['a', '_', ' ', '@', ' ', 'b']) = true) := by decide

/-- Claim C6 (amended): every character of `clean_text t` is a word
character (letter, digit or underscore), a whitespace character, or one of
`.`, `,`, `!`, `?`.  (The no-whitespace-run conjunct of the original claim
is refuted by the counterexample.) -/
theorem c6_clean_text_chars_kept {t : List Char} {c : Char}
    (h : c ∈ clean_text t) : keptChar c = true :=
  ((wsNormal_clean_text t).1 c h).1

/-- Witness for C6 (amended) at a concrete input. -/
theorem c6_clean_text_chars_kept_witness : keptChar 'a' = true :=
  c6_clean_text_chars_kept (t := ['a', '!', 'b']) (by decide)

/-! ## Theme assigner: `assign_theme` in `scripts/thematic_analyzer.py`

`assign_theme` lowercases the text, scores each configured theme by the
number of its keywords occurring as substrings, and takes
`max(theme_scores, key=theme_scores.get)` when the maximal score is
positive, else returns `'Other'`.  The configuration dict is modelled as an
ordered association list (Python dicts preserve insertion order and have
distinct keys); `max` over a dict iterates the keys in insertion order and
keeps the first key attaining the maximum.  An empty configuration would
make Python `max` raise `ValueError`, modelled as `none`.
-/

def leadEq : List Char → List Char → Bool
  | [], _ => true
  | _ :: _, [] => false
  | a :: ks, b :: ts => a == b && leadEq ks ts

def occursIn (k : List Char) : List Char → Bool
  | [] => k.isEmpty
  | c :: ts => leadEq k (c :: ts) || occursIn k ts

def themeScore (keywords : List (List Char)) (textLower : List Char) : Nat :=
  (keywords.filter (fun k => occursIn k textLower)).length

def themeScores (themes : List (String × List (List Char))) (text : List Char) :
    List (String × Nat) :=
  themes.map (fun th => (th.1, themeScore th.2 (text.map pyLower)))

def pickMax (q r : String × Nat) : String × Nat :=
  if r.2 > q.2 then r else q

def pyMaxPair : List (String × Nat) → Option (String × Nat)
  | [] => none
  | p :: ps => some (ps.foldl pickMax p)

def assign_theme (themes : List (String × List (List Char))) (text : List Char) :
    Option String :=
  match pyMaxPair (themeScores themes text) with
  | none => none
  | some best => if best.2 > 0 then some best.1 else some "Other"

theorem foldl_pickMax_spec :
    ∀ (ps : List (String × Nat)) (q : String × Nat),
      (ps.foldl pickMax q = q ∧ ∀ r ∈ ps, r.2 ≤ q.2) ∨
      (∃ i, ∃ h : i < ps.length,
        ps.get ⟨i, h⟩ = ps.foldl pickMax q ∧ q.2 < (ps.foldl pickMax q).2 ∧
        (∀ r ∈ ps, r.2 ≤ (ps.foldl pickMax q).2) ∧
        (∀ r ∈ ps.take i, r.2 < (ps.foldl pickMax q).2)) := by
  intro ps
  induction ps with
  | nil => intro q; exact Or.inl ⟨rfl, by simp⟩
  | cons r rs ih =>
    intro q
    rw [List.foldl_cons]
    by_cases hr : r.2 > q.2
    · have hq : pickMax q r = r := by simp [pickMax, hr]
      rw [hq]
      rcases ih r with ⟨h1, h2⟩ | ⟨i, hi, h1, h2, h3, h4⟩
      · refine Or.inr ⟨0, by simp, ?_, ?_, ?_, ?_⟩
        · simpa using h1.symm
        · rw [h1]; exact hr
        · intro s hs
          rw [h1]
          rcases List.mem_cons.mp hs with h | h
          · simp [h]
          · exact h2 s h
        · simp
      · refine Or.inr ⟨i + 1, by simpa using hi, ?_, ?_, ?_, ?_⟩
        · simpa using h1
        · exact lt_trans hr h2
        · intro s hs
          rcases List.mem_cons.mp hs with h | h
          · rw [h]; exact le_of_lt h2
          · exact h3 s h
        · intro s hs
          rw [List.take_succ_cons] at hs
          rcases List.mem_cons.mp hs with h | h
          · rw [h]; exact h2
          · exact h4 s h
    · have hq : pickMax q r = q := by simp [pickMax, hr]
      rw [hq]
      rcases ih q with ⟨h1, h2⟩ | ⟨i, hi, h1, h2, h3, h4⟩
      · refine Or.inl ⟨h1, ?_⟩
        intro s hs
        rcases List.mem_cons.mp hs with h | h
        · rw [h]; omega
        · exact h2 s h
      · refine Or.inr ⟨i + 1, by simpa using hi, ?_, ?_, ?_, ?_⟩
        · simpa using h1
        · exact h2
        · intro s hs
          rcases List.mem_cons.mp hs with h | h
          · rw [h]; omega
          · exact h3 s h
        · intro s hs
          rw [List.take_succ_cons] at hs
          rcases List.mem_cons.mp hs with h | h
          · rw [h]; omega
          · exact h4 s h

theorem pyMaxPair_spec {l : List (String × Nat)} {m : String × Nat}
    (h : pyMaxPair l = some m) :
    ∃ i, ∃ hi : i < l.length,
      l.get ⟨i, hi⟩ = m ∧ (∀ r ∈ l, r.2 ≤ m.2) ∧ (∀ r ∈ l.take i, r.2 < m.2) := by
  cases l with
  | nil => simp [pyMaxPair] at h
  | cons p ps =>
    simp only [pyMaxPair, Option.some_inj] at h
    subst h
    rcases foldl_pickMax_spec ps p with ⟨h1, h2⟩ | ⟨i, hi, h1, h2, h3, h4⟩
    · refine ⟨0, by simp, by simpa using h1.symm, ?_, by simp⟩
      intro s hs
      rw [h1]
      rcases List.mem_cons.mp hs with h | h
      · simp [h]
      · exact h2 s h
    · refine ⟨i + 1, by simpa using hi, by simpa using h1, ?_, ?_⟩
      · intro s hs
        rcases List.mem_cons.mp hs with h | h
        · rw [h]; exact le_of_lt h2
        · exact h3 s h
      · intro s hs
        rw [List.take_succ_cons] at hs
        rcases List.mem_cons.mp hs with h | h
        · rw [h]; exact h2
        · exact h4 s h

theorem get_mem_take {α : Type} :
    ∀ (l : List α) (i j : Nat) (hj : j < l.length), j < i → l.get ⟨j, hj⟩ ∈ l.take i := by
  intro l
  induction l with
  | nil => intro i j hj _; simp at hj
  | cons a as ih =>
    intro i j hj hji
    cases i with
    | zero => omega
    | succ i =>
      rw [List.take_succ_cons]
      cases j with
      | zero => simp [List.get]
      | succ j => exact List.mem_cons_of_mem _ (ih i j (by simpa using hj) (by omega))

/-- Claim C8: for every configured theme list (with the distinct names a
Python dict guarantees) and input text, if the theme at position `i` has a
nonzero score that is maximal and strictly above every earlier theme's
score (in particular on a tie with any later theme), `assign_theme`
returns that earliest maximal theme's name. -/
theorem c8_assign_theme_tie_break (themes : List (String × List (List Char))) (text : List Char)
    (i : Nat) (h : i < themes.length)
    (hnd : (themes.map Prod.fst).Nodup)
    (hpos : 0 < themeScore (themes.get ⟨i, h⟩).2 (text.map pyLower))
    (hmax : ∀ r ∈ themeScores themes text,
      r.2 ≤ themeScore (themes.get ⟨i, h⟩).2 (text.map pyLower))
    (hfirst : ∀ r ∈ (themeScores themes text).take i,
      r.2 < themeScore (themes.get ⟨i, h⟩).2 (text.map pyLower)) :
    assign_theme themes text = some (themes.get ⟨i, h⟩).1 := by
  set v := themeScore (themes.get ⟨i, h⟩).2 (text.map pyLower) with hv
  have hlen : (themeScores themes text).length = themes.length := by simp [themeScores]
  have hi2 : i < (themeScores themes text).length := by omega
  have hget : (themeScores themes text).get ⟨i, hi2⟩ = ((themes.get ⟨i, h⟩).1, v) := by
    simp only [themeScores, List.get_eq_getElem, List.getElem_map]
    rfl
  cases hm : pyMaxPair (themeScores themes text) with
  | none =>
    exfalso
    cases hts : themeScores themes text with
    | nil => rw [hts] at hi2; simp at hi2
    | cons a as => rw [hts] at hm; simp [pyMaxPair] at hm
  | some m =>
    obtain ⟨i2, hi2l, hgi2, hmax2, hfirst2⟩ := pyMaxPair_spec hm
    have hmem_m : m ∈ themeScores themes text := hgi2 ▸ List.get_mem _ _ _
    have hv_le : v ≤ m.2 := by
      have := hmax2 _ (List.get_mem (themeScores themes text) i hi2)
      rw [hget] at this
      exact this
    have hvm : m.2 = v := le_antisymm (hmax m hmem_m) hv_le
    have hieq : i2 = i := by
      by_contra hne
      rcases Nat.lt_or_ge i2 i with hlt | hge
      · have := hfirst _ (hgi2 ▸ get_mem_take _ i i2 hi2l hlt)
        omega
      · have hlt2 : i < i2 := by omega
        have := hfirst2 _ (get_mem_take _ i2 i hi2 hlt2)
        rw [hget] at this
        simp only at this
        omega
    have hm_eq : m = ((themes.get ⟨i, h⟩).1, v) := by
      rw [← hget, ← hgi2]
      congr 1
      exact Fin.ext hieq
    unfold assign_theme
    rw [hm, hm_eq]
    simp only [gt_iff_lt]
    rw [if_pos hpos]

/-- Claim C9: for every nonempty configured theme list and every input
text in which every theme's keyword-match count is zero, `assign_theme`
returns the reserved value `Other`.  (On an empty configuration the Python
code would raise `ValueError` from `max()`; the repository's configuration
is a fixed nonempty dict.) -/
theorem c9_assign_theme_other (themes : List (String × List (List Char))) (text : List Char)
    (hne : themes ≠ [])
    (hzero : ∀ r ∈ themeScores themes text, r.2 = 0) :
    assign_theme themes text = some "Other" := by
  cases hm : pyMaxPair (themeScores themes text) with
  | none =>
    exfalso
    cases themes with
    | nil => exact hne rfl
    | cons a as => simp [themeScores, pyMaxPair] at hm
  | some m =>
    obtain ⟨i2, hi2, hgi2, _, _⟩ := pyMaxPair_spec hm
    have hm0 : m.2 = 0 := hzero m (hgi2 ▸ List.get_mem _ _ _)
    unfold assign_theme
    rw [hm]
    simp [hm0]

/-- The theme configuration hard-coded in `ThematicAnalyzer.__init__`. -/
def themesConfig : List (String × List (List Char)) :=
  [("UI/UX", ["interface".toList, "design".toList, "layout".toList, "screen".toList,
      "button".toList, "menu".toList, "navigation".toList]),
   ("Performance", ["slow".toList, "fast".toList, "speed".toList, "loading".toList,
      "lag".toList, "crash".toList, "freeze".toList]),
   ("Functionality", ["transfer".toList, "payment".toList, "login".toList,
      "password".toList, "account".toList, "balance".toList]),
   ("Security", ["secure".toList, "safe".toList, "password".toList, "pin".toList,
      "authentication".toList, "fingerprint".toList]),
   ("Support", ["support".toList, "help".toList, "service".toList, "response".toList,
      "contact".toList, "complaint".toList])]

/-- Witness for C8: with two themes `A` then `B`, both with keyword group
`{"x"}`, and input text `"x"`, `assign_theme` returns `A`. -/
theorem c8_assign_theme_tie_break_witness :
    assign_theme [("A", [['x']]), ("B", [['x']])] ['x'] = some "A" :=
  c8_assign_theme_tie_break [("A", [['x']]), ("B", [['x']])] ['x'] 0 (by decide)
    (by decide) (by decide) (by decide) (by decide)

/-- Witness for C9: on the repository's configured theme set and a text with
no keyword occurrences, `assign_theme` returns `Other`. -/
theorem c9_assign_theme_other_witness :
    assign_theme themesConfig ['z', 'z'] = some "Other" :=
  c9_assign_theme_other themesConfig ['z', 'z'] (by decide) (by decide)

/-! ## Sentiment classifier: `analyze_sentiment_distilbert` in
`scripts/sentiment_analyzer.py`

The wrapper truncates the text to 512 characters, calls the underlying
classification capability (the transformer pipeline, an external
collaborator modelled as a function returning `none` on any exception),
and on failure returns the fixed fallback `('NEUTRAL', 0.5)`.  Scores are
modelled as `ℚ`; the wrapper performs no arithmetic on them.
-/

/-- `text[:512]`, the long-input guard. -/
def truncate512 (t : List Char) : List Char :=
  t.take 512

/-- `analyze_sentiment_distilbert`, parametrized by the pluggable
classification capability `cap` (`none` models an exception in
`self.sentiment_pipeline`). -/
def analyze_sentiment_distilbert (cap : List Char → Option (String × ℚ))
    (t : List Char) : String × ℚ :=
  match cap (truncate512 t) with
  | some r => r
  | none => ("NEUTRAL", 1/2)

/-- Claim C7: if the underlying capability only ever returns labels in
{POSITIVE, NEGATIVE, NEUTRAL} with scores in [0,1] (the contract of the
sst-2 model), then for every text the wrapper's label is in that set and
its score is in [0,1]; and whenever the capability fails, the wrapper does
not raise and returns exactly ('NEUTRAL', 0.5). -/
theorem c7_classify_contract (cap : List Char → Option (String × ℚ)) (t : List Char)
    (hcap : ∀ s l q, cap s = some (l, q) →
      (l = "POSITIVE" ∨ l = "NEGATIVE" ∨ l = "NEUTRAL") ∧ 0 ≤ q ∧ q ≤ 1) :
    (((analyze_sentiment_distilbert cap t).1 = "POSITIVE" ∨
      (analyze_sentiment_distilbert cap t).1 = "NEGATIVE" ∨
      (analyze_sentiment_distilbert cap t).1 = "NEUTRAL") ∧
     0 ≤ (analyze_sentiment_distilbert cap t).2 ∧
     (analyze_sentiment_distilbert cap t).2 ≤ 1) ∧
    (cap (truncate512 t) = none →
      analyze_sentiment_distilbert cap t = ("NEUTRAL", 1/2)) := by
  unfold analyze_sentiment_distilbert
  cases hc : cap (truncate512 t) with
  | none =>
    refine ⟨⟨Or.inr (Or.inr rfl), by norm_num, by norm_num⟩, fun _ => rfl⟩
  | some r =>
    obtain ⟨hl, hq0, hq1⟩ := hcap _ r.1 r.2 (by rw [hc])
    exact ⟨⟨hl, hq0, hq1⟩, fun h => by simp at h⟩

/-- Witness for C7: a capability that always fails yields exactly the
neutral fallback. -/
theorem c7_classify_contract_witness :
    analyze_sentiment_distilbert (fun _ => none) ['h', 'i'] = ("NEUTRAL", 1/2) :=
  (c7_classify_contract (fun _ => none) ['h', 'i']
    (fun s l q h => absurd h (by simp))).2 rfl

/-! ## Pipeline orchestrator: `main` in `main.py`

Each stage's body is guarded by the presence (in `pipeline_data`) and
non-emptiness of its input dataset; a dataset is added to `pipeline_data`
only when its producing stage's try-block, validation and save all
succeed.  `PipelineEnv` records those per-stage environment outcomes
(`*Ok` = the stage's body, validation and save succeed when attempted;
`*Nonempty` = the produced dataset is non-empty); the `runs*` functions
reproduce `main`'s guards for steps 2-6.  Step 5 (database storage) and
step 6 (visualization) are both guarded by `'final' in pipeline_data and
not pipeline_data['final'].empty` only.
-/

structure PipelineEnv where
  hasRaw : Bool
  rawNonempty : Bool
  cleanOk : Bool
  cleanNonempty : Bool
  sentOk : Bool
  sentNonempty : Bool
  themeOk : Bool
  themeNonempty : Bool
  dbOk : Bool
  vizOk : Bool
deriving DecidableEq

def runsClean (e : PipelineEnv) : Bool :=
  e.hasRaw && e.rawNonempty

def cleanedAvailable (e : PipelineEnv) : Bool :=
  runsClean e && e.cleanOk

def runsSentiment (e : PipelineEnv) : Bool :=
  cleanedAvailable e && e.cleanNonempty

def analyzedAvailable (e : PipelineEnv) : Bool :=
  runsSentiment e && e.sentOk

def runsTheme (e : PipelineEnv) : Bool :=
  analyzedAvailable e && e.sentNonempty

def finalAvailable (e : PipelineEnv) : Bool :=
  runsTheme e && e.themeOk

def runsPersist (e : PipelineEnv) : Bool :=
  finalAvailable e && e.themeNonempty

def runsVisualize (e : PipelineEnv) : Bool :=
  finalAvailable e && e.themeNonempty

/-- Claim C2 counterexample: a run in which every stage up to Persist
succeeds, the Persist (database storage) stage fails, and the Visualize
stage still runs — `main` guards step 6 only on the final dataset being
available and non-empty, not on step 5's outcome. -/
theorem c2_persist_failure_skips_nothing :
    runsPersist ⟨true, true, true, true, true, true, true, true, false, true⟩ = true ∧
    PipelineEnv.dbOk ⟨true, true, true, true, true, true, true, true, false, true⟩ = false ∧
    runsVisualize ⟨true, true, true, true, true, true, true, true, false, true⟩ = true := by
  decide

/-- Claim C2 (amended): a failure of Clean, ClassifySentiment or
AssignTheme does skip every downstream stage, but Persist and Visualize
are independent consumers of the final dataset: when Persist runs and
fails, Visualize still runs. -/
theorem c2_downstream_skipping (e : PipelineEnv) :
    (runsClean e = true ∧ e.cleanOk = false →
      runsSentiment e = false ∧ runsTheme e = false ∧
      runsPersist e = false ∧ runsVisualize e = false) ∧
    (runsSentiment e = true ∧ e.sentOk = false →
      runsTheme e = false ∧ runsPersist e = false ∧ runsVisualize e = false) ∧
    (runsTheme e = true ∧ e.themeOk = false →
      runsPersist e = false ∧ runsVisualize e = false) ∧
    (runsPersist e = true ∧ e.dbOk = false → runsVisualize e = true) := by
  obtain ⟨a, b, c, d, f, g, h, i, j, k⟩ := e
  simp only [runsClean, cleanedAvailable, runsSentiment, analyzedAvailable,
    runsTheme, finalAvailable, runsPersist, runsVisualize, Bool.and_eq_true]
  cases c <;> cases f <;> cases h <;> simp_all

/-- Witness for the amended C2 at a concrete run in which the thematic
stage fails: both Persist and Visualize are skipped. -/
theorem c2_downstream_skipping_witness :
    runsPersist ⟨true, true, true, true, true, true, false, true, true, true⟩ = false ∧
    runsVisualize ⟨true, true, true, true, true, true, false, true, true, true⟩ = false :=
  (c2_downstream_skipping ⟨true, true, true, true, true, true, false, true, true, true⟩).2.2.1
    ⟨by decide, rfl⟩

/-! ## Verifier: `compare_counts` in `scripts/db_verifier.py`

`compare_counts` flips `integrity_check` to `False` when the total review
counts differ and when the unique-bank counts differ; the per-bank loop
collects mismatch entries for every bank in the union of the two key sets
whose counts differ (missing keys default to 0 via `.get(bank, 0)`), but
never touches `integrity_check`.  The summary's `data_integrity` is
`'PASS'` iff `integrity_check` holds.  Mismatch messages are modelled as
structured `Mismatch` values; the Python `set` union of bank names is
modelled as a deduplicated list (only membership and emptiness of the
resulting mismatch list matter to the claim).
-/

structure VerifyCounts where
  total_reviews : Nat
  unique_banks : Nat
  bank_counts : List (String × Nat)
deriving DecidableEq

def lookupCount (m : List (String × Nat)) (k : String) : Nat :=
  match m.lookup k with
  | some v => v
  | none => 0

def allBanks (db src : List (String × Nat)) : List String :=
  (db.map Prod.fst ++ src.map Prod.fst).dedup

inductive Mismatch where
  | total (dbv srcv : Nat)
  | uniqueBanks (dbv srcv : Nat)
  | bank (name : String) (dbv srcv : Nat)
deriving DecidableEq

structure Comparison where
  integrity_check : Bool
  mismatches : List Mismatch
  data_integrity : String
deriving DecidableEq

def compare_counts (db src : VerifyCounts) : Comparison :=
  let totalOk := db.total_reviews == src.total_reviews
  let uniqOk := db.unique_banks == src.unique_banks
  let ic := totalOk && uniqOk
  let ms1 : List Mismatch :=
    if totalOk then [] else [.total db.total_reviews src.total_reviews]
  let ms2 : List Mismatch :=
    if uniqOk then [] else [.uniqueBanks db.unique_banks src.unique_banks]
  let bms : List Mismatch :=
    (allBanks db.bank_counts src.bank_counts).filterMap (fun b =>
      let d := lookupCount db.bank_counts b
      let s := lookupCount src.bank_counts b
      if d == s then none else some (.bank b d s))
  { integrity_check := ic
    mismatches := ms1 ++ ms2 ++ bms
    data_integrity := if ic then "PASS" else "FAIL" }

/-- Claim C1 counterexample: with equal totals (3 = 3) and equal
unique-bank counts (2 = 2) but swapped per-bank counts, `compare_counts`
reports `integrity_check = True` and `data_integrity = 'PASS'` while its
itemized mismatch list is non-empty — the per-bank comparison loop appends
to `mismatches` without clearing the integrity flag. -/
theorem c1_integrity_despite_mismatches :
    ¬(((compare_counts ⟨3, 2, [("A", 2), ("B", 1)]⟩ ⟨3, 2, [("A", 1), ("B", 2)]⟩).integrity_check
        = true ∧
       (compare_counts ⟨3, 2, [("A", 2), ("B", 1)]⟩ ⟨3, 2, [("A", 1), ("B", 2)]⟩).data_integrity
        = "PASS") ↔
      (compare_counts ⟨3, 2, [("A", 2), ("B", 1)]⟩ ⟨3, 2, [("A", 1), ("B", 2)]⟩).mismatches
        = []) := by
  decide

/-- Claim C1 (amended): the report claims verified integrity iff the total
review counts and the unique-bank counts both match; per-bank count
mismatches are itemized in the mismatch list but do not affect the
integrity flag.  Consequently an empty mismatch list implies verified
integrity, but not conversely. -/
theorem c1_integrity_flag_characterization (db src : VerifyCounts) :
    ((compare_counts db src).integrity_check = true ↔
      db.total_reviews = src.total_reviews ∧ db.unique_banks = src.unique_banks) ∧
    ((compare_counts db src).data_integrity = "PASS" ↔
      (compare_counts db src).integrity_check = true) ∧
    ((compare_counts db src).mismatches = [] →
      (compare_counts db src).integrity_check = true) := by
  refine ⟨?_, ?_, ?_⟩
  · simp [compare_counts]
  · simp only [compare_counts]
    by_cases h : (db.total_reviews == src.total_reviews && db.unique_banks == src.unique_banks) = true
    · simp [h]
    · simp [h]
  · intro h
    simp only [compare_counts, List.append_eq_nil] at h
    obtain ⟨⟨h1, h2⟩, _⟩ := h
    simp only [compare_counts]
    by_cases ht : (db.total_reviews == src.total_reviews) = true
    · by_cases hu : (db.unique_banks == src.unique_banks) = true
      · simp [ht, hu]
      · rw [if_neg hu] at h2
        simp at h2
    · rw [if_neg ht] at h1
      simp at h1

/-- Witness for the amended C1: on matching totals and unique-bank counts
the integrity flag is set. -/
theorem c1_integrity_flag_characterization_witness :
    (compare_counts ⟨5, 2, [("A", 3), ("B", 2)]⟩
      ⟨5, 2, [("A", 3), ("B", 2)]⟩).integrity_check = true :=
  (c1_integrity_flag_characterization ⟨5, 2, [("A", 3), ("B", 2)]⟩
    ⟨5, 2, [("A", 3), ("B", 2)]⟩).1.mpr ⟨rfl, rfl⟩

/-! ## Storage layer: `insert_data` in `scripts/database_handler.py`

`insert_data` returns early on an empty DataFrame; fills the optional
columns `source`, `date`, `sentiment_label`, `sentiment_score`, `theme`
with defaults when the column is absent from the frame (column presence is
frame-level, modelled by the `has*` flags); derives the bank dimension as
`df[['bank','source']].drop_duplicates()` with surrogate ids `index + 1`;
inserts the banks table; builds the `bank_name -> bank_id` dict (later
duplicate names overwrite earlier ones, a NaN bank never maps); attaches
`bank_id` to each review via that dict; drops rows with missing
`bank_id`/`review_id`/`review_text`; coerces `date` (modelled as an
already-parsed `Option Nat`, `none` = unparseable or missing, i.e. `NaT`
after `pd.to_datetime(errors='coerce')`) and drops rows with invalid
dates; finally inserts the reviews in chunks of 1000.  The emitted
`DbEvent` list records the insertion order (`to_sql` calls); `chunk1000`
uses structural fuel recursion so that proofs and witnesses evaluate.
Database-side constraint behaviour (e.g. the NOT NULL bank_name column)
is outside this model, which covers the rows the handler submits.
-/

structure InputRow where
  bank : Option String
  review_text : Option String
  rating : Int
  review_id : Option String
  source : String
  date : Option Nat
  sentiment_label : String
  sentiment_score : ℚ
  theme : String
deriving DecidableEq

structure InputFrame where
  rows : List InputRow
  hasSource : Bool
  hasDate : Bool
  hasLabel : Bool
  hasScore : Bool
  hasTheme : Bool

def fillDefaults (now : Nat) (f : InputFrame) : List InputRow :=
  f.rows.map (fun r =>
    { r with
      source := if f.hasSource then r.source else "Google Play Store"
      date := if f.hasDate then r.date else some now
      sentiment_label := if f.hasLabel then r.sentiment_label else "NEUTRAL"
      sentiment_score := if f.hasScore then r.sentiment_score else 0
      theme := if f.hasTheme then r.theme else "General" })

def dedupFSAux {α : Type} [DecidableEq α] (seen : List α) : List α → List α
  | [] => []
  | p :: ps => if p ∈ seen then dedupFSAux seen ps else p :: dedupFSAux (p :: seen) ps

def dedupFS {α : Type} [DecidableEq α] (l : List α) : List α :=
  dedupFSAux [] l

def specFirstSeen {α : Type} [DecidableEq α] (l : List α) : List α :=
  l.foldl (fun acc p => if p ∈ acc then acc else acc ++ [p]) []

def enumFrom {α : Type} : Nat → List α → List (Nat × α)
  | _, [] => []
  | n, a :: as => (n, a) :: enumFrom (n + 1) as

structure BankRow where
  bank_id : Nat
  bank_name : Option String
  source : String
deriving DecidableEq

def bankDim (rows : List InputRow) : List BankRow :=
  (enumFrom 1 (dedupFS (rows.map (fun r => (r.bank, r.source))))).map
    (fun p => ⟨p.1, p.2.1, p.2.2⟩)

def lookupBankId (dim : List BankRow) : Option String → Option Nat
  | none => none
  | some name =>
    dim.foldl (fun acc br => if br.bank_name == some name then some br.bank_id else acc) none

structure ReviewRow where
  review_id : Option String
  bank_id : Nat
  review_text : Option String
  rating : Int
  sentiment_label : String
  sentiment_score : ℚ
  theme : String
  date : Option Nat
deriving DecidableEq

def prepareReviews (rows : List InputRow) (dim : List BankRow) : List ReviewRow :=
  rows.filterMap (fun r =>
    (lookupBankId dim r.bank).bind (fun bid =>
      if r.review_id.isSome && r.review_text.isSome && r.date.isSome then
        some ⟨r.review_id, bid, r.review_text, r.rating, r.sentiment_label,
          r.sentiment_score, r.theme, r.date⟩
      else none))

def chunkAux {α : Type} : Nat → List α → List (List α)
  | 0, _ => []
  | _, [] => []
  | fuel + 1, l => l.take 1000 :: chunkAux fuel (l.drop 1000)

def chunk1000 {α : Type} (l : List α) : List (List α) :=
  chunkAux l.length l

inductive DbEvent where
  | banks (rows : List BankRow)
  | reviewChunk (rows : List ReviewRow)
deriving DecidableEq

def insert_data (now : Nat) (f : InputFrame) : List DbEvent :=
  if f.rows.isEmpty then []
  else
    DbEvent.banks (bankDim (fillDefaults now f)) ::
      (chunk1000 (prepareReviews (fillDefaults now f)
        (bankDim (fillDefaults now f)))).map DbEvent.reviewChunk

def insertedBanks (evs : List DbEvent) : List BankRow :=
  evs.foldr (fun e acc => match e with | .banks rs => rs ++ acc | _ => acc) []

def insertedReviews (evs : List DbEvent) : List ReviewRow :=
  evs.foldr (fun e acc => match e with | .reviewChunk rs => rs ++ acc | _ => acc) []

theorem chunkAux_join {α : Type} :
    ∀ (fuel : Nat) (l : List α), l.length ≤ fuel → (chunkAux fuel l).flatten = l := by
  intro fuel
  induction fuel with
  | zero =>
    intro l h
    rw [Nat.le_zero] at h
    rw [List.length_eq_zero] at h
    subst h
    rfl
  | succ fuel ih =>
    intro l h
    cases l with
    | nil => rfl
    | cons a as =>
      simp only [chunkAux, List.flatten_cons]
      rw [ih ((a :: as).drop 1000) (by rw [List.length_drop]; simp at h ⊢; omega)]
      exact List.take_append_drop 1000 (a :: as)

theorem chunk1000_join {α : Type} (l : List α) : (chunk1000 l).flatten = l :=
  chunkAux_join l.length l le_rfl

theorem insertedReviews_chunks (cs : List (List ReviewRow)) :
    insertedReviews (cs.map DbEvent.reviewChunk) = cs.flatten := by
  induction cs with
  | nil => rfl
  | cons c cs ih => simp only [List.map_cons, insertedReviews, List.foldr_cons, List.flatten_cons]
                    rw [← ih]; rfl

theorem insertedBanks_chunks (cs : List (List ReviewRow)) :
    insertedBanks (cs.map DbEvent.reviewChunk) = [] := by
  induction cs with
  | nil => rfl
  | cons c cs ih => simpa [insertedBanks, List.foldr_cons] using ih

theorem insertedReviews_insert_data {now : Nat} {f : InputFrame} (h : f.rows ≠ []) :
    insertedReviews (insert_data now f) =
      prepareReviews (fillDefaults now f) (bankDim (fillDefaults now f)) := by
  unfold insert_data
  rw [if_neg (by simpa using h)]
  show insertedReviews (DbEvent.banks _ :: _) = _
  unfold insertedReviews
  rw [List.foldr_cons]
  show insertedReviews (List.map DbEvent.reviewChunk _) = _
  rw [insertedReviews_chunks, chunk1000_join]

theorem insertedBanks_insert_data {now : Nat} {f : InputFrame} (h : f.rows ≠ []) :
    insertedBanks (insert_data now f) = bankDim (fillDefaults now f) := by
  unfold insert_data
  rw [if_neg (by simpa using h)]
  show insertedBanks (DbEvent.banks _ :: _) = _
  unfold insertedBanks
  rw [List.foldr_cons]
  show bankDim _ ++ insertedBanks (List.map DbEvent.reviewChunk _) = _
  rw [insertedBanks_chunks, List.append_nil]

theorem mem_dedupFSAux {α : Type} [DecidableEq α] {x : α} :
    ∀ {l seen : List α}, x ∈ dedupFSAux seen l ↔ x ∈ l ∧ x ∉ seen := by
  intro l
  induction l with
  | nil => intro seen; simp [dedupFSAux]
  | cons p ps ih =>
    intro seen
    by_cases hp : p ∈ seen
    · rw [dedupFSAux, if_pos hp, ih]
      constructor
      · rintro ⟨h1, h2⟩
        exact ⟨List.mem_cons_of_mem _ h1, h2⟩
      · rintro ⟨h1, h2⟩
        rcases List.mem_cons.mp h1 with h | h
        · subst h; exact absurd hp h2
        · exact ⟨h, h2⟩
    · rw [dedupFSAux, if_neg hp]
      constructor
      · intro h
        rcases List.mem_cons.mp h with h | h
        · subst h; exact ⟨List.mem_cons_self _ _, hp⟩
        · obtain ⟨h1, h2⟩ := ih.mp h
          refine ⟨List.mem_cons_of_mem _ h1, ?_⟩
          intro hx
          exact h2 (List.mem_cons_of_mem _ hx)
      · rintro ⟨h1, h2⟩
        rcases List.mem_cons.mp h1 with h | h
        · subst h; exact List.mem_cons_self _ _
        · by_cases hxp : x = p
          · subst hxp; exact List.mem_cons_self _ _
          · exact List.mem_cons_of_mem _ (ih.mpr ⟨h, by simp [hxp, h2]⟩)

theorem mem_dedupFS {α : Type} [DecidableEq α] {x : α} {l : List α} :
    x ∈ dedupFS l ↔ x ∈ l := by
  rw [dedupFS, mem_dedupFSAux]
  simp

theorem nodup_dedupFSAux {α : Type} [DecidableEq α] :
    ∀ (l seen : List α), (dedupFSAux seen l).Nodup := by
  intro l
  induction l with
  | nil => intro seen; simp [dedupFSAux]
  | cons p ps ih =>
    intro seen
    by_cases hp : p ∈ seen
    · rw [dedupFSAux, if_pos hp]; exact ih seen
    · rw [dedupFSAux, if_neg hp]
      refine List.nodup_cons.mpr ⟨?_, ih (p :: seen)⟩
      intro hmem
      exact (mem_dedupFSAux.mp hmem).2 (List.mem_cons_self _ _)

theorem nodup_dedupFS {α : Type} [DecidableEq α] (l : List α) : (dedupFS l).Nodup :=
  nodup_dedupFSAux l []

theorem dedupFSAux_congr {α : Type} [DecidableEq α] :
    ∀ {l s t : List α}, (∀ x, x ∈ s ↔ x ∈ t) → dedupFSAux s l = dedupFSAux t l := by
  intro l
  induction l with
  | nil => intro s t _; rfl
  | cons p ps ih =>
    intro s t h
    by_cases hp : p ∈ s
    · rw [dedupFSAux, if_pos hp, dedupFSAux, if_pos ((h p).mp hp)]
      exact ih h
    · rw [dedupFSAux, if_neg hp, dedupFSAux, if_neg (fun hx => hp ((h p).mpr hx))]
      refine congrArg _ (ih ?_)
      intro x
      simp [h x]

theorem specFirstSeen_eq_dedupFS {α : Type} [DecidableEq α] (l : List α) :
    specFirstSeen l = dedupFS l := by
  have key : ∀ (l acc : List α),
      l.foldl (fun acc p => if p ∈ acc then acc else acc ++ [p]) acc =
        acc ++ dedupFSAux acc l := by
    intro l
    induction l with
    | nil => intro acc; simp [dedupFSAux]
    | cons p ps ih =>
      intro acc
      rw [List.foldl_cons]
      by_cases hp : p ∈ acc
      · rw [if_pos hp, dedupFSAux, if_pos hp]
        exact ih acc
      · rw [if_neg hp, dedupFSAux, if_neg hp, ih (acc ++ [p])]
        rw [dedupFSAux_congr (t := p :: acc) (by intro x; simp; tauto)]
        simp
  rw [specFirstSeen, dedupFS, key, List.nil_append]

theorem enumFrom_map_fst {α : Type} :
    ∀ (n : Nat) (l : List α), (enumFrom n l).map Prod.fst = List.range' n l.length := by
  intro n l
  induction l generalizing n with
  | nil => rfl
  | cons a as ih =>
    simp only [enumFrom, List.map_cons, ih, List.length_cons]
    rw [List.range'_succ]

theorem enumFrom_map_snd {α : Type} :
    ∀ (n : Nat) (l : List α), (enumFrom n l).map Prod.snd = l := by
  intro n l
  induction l generalizing n with
  | nil => rfl
  | cons a as ih => simp [enumFrom, ih]

theorem bankDim_pairs (rows : List InputRow) :
    (bankDim rows).map (fun b => (b.bank_name, b.source)) =
      dedupFS (rows.map (fun r => (r.bank, r.source))) := by
  unfold bankDim
  rw [List.map_map]
  have : ((fun b : BankRow => (b.bank_name, b.source)) ∘
      (fun p : Nat × (Option String × String) => (⟨p.1, p.2.1, p.2.2⟩ : BankRow))) =
      Prod.snd := by
    funext p
    rfl
  rw [this, enumFrom_map_snd]

theorem bankDim_ids (rows : List InputRow) :
    (bankDim rows).map BankRow.bank_id =
      List.range' 1 (dedupFS (rows.map (fun r => (r.bank, r.source)))).length := by
  unfold bankDim
  rw [List.map_map]
  have : (BankRow.bank_id ∘
      (fun p : Nat × (Option String × String) => (⟨p.1, p.2.1, p.2.2⟩ : BankRow))) =
      Prod.fst := by
    funext p
    rfl
  rw [this, enumFrom_map_fst]

theorem lookupBankId_isSome {dim : List BankRow} {name : String}
    (h : ∃ b ∈ dim, b.bank_name = some name) :
    (lookupBankId dim (some name)).isSome = true := by
  have key : ∀ (l : List BankRow) (acc : Option Nat),
      (acc.isSome = true ∨ ∃ b ∈ l, b.bank_name = some name) →
      (l.foldl (fun acc br => if br.bank_name == some name then some br.bank_id else acc)
        acc).isSome = true := by
    intro l
    induction l with
    | nil =>
      intro acc h
      rcases h with h | h
      · exact h
      · simp at h
    | cons b bs ih =>
      intro acc h
      rw [List.foldl_cons]
      by_cases hb : b.bank_name = some name
      · apply ih
        left
        simp [hb]
      · apply ih
        rcases h with h | h
        · left
          simpa [show (b.bank_name == some name) = false by simpa using hb] using h
        · right
          rcases h with ⟨b2, hb2, hb2n⟩
          rcases List.mem_cons.mp hb2 with he | he
          · exact absurd (he ▸ hb2n) hb
          · exact ⟨b2, he, hb2n⟩
  exact key dim none (Or.inr h)

theorem lookupBankId_mem {dim : List BankRow} {ob : Option String} {bid : Nat}
    (h : lookupBankId dim ob = some bid) :
    ∃ b ∈ dim, b.bank_id = bid ∧ b.bank_name = ob := by
  cases ob with
  | none => simp [lookupBankId] at h
  | some name =>
    have key : ∀ (l : List BankRow) (acc : Option Nat),
        (l.foldl (fun acc br => if br.bank_name == some name then some br.bank_id else acc)
          acc) = some bid →
        acc = some bid ∨ ∃ b ∈ l, b.bank_id = bid ∧ b.bank_name = some name := by
      intro l
      induction l with
      | nil => intro acc h; exact Or.inl h
      | cons b bs ih =>
        intro acc h
        rw [List.foldl_cons] at h
        rcases ih _ h with h2 | ⟨b2, hb2, hb2i, hb2n⟩
        · by_cases hb : b.bank_name = some name
          · rw [if_pos (by simpa using hb)] at h2
            right
            exact ⟨b, List.mem_cons_self _ _, by simpa using h2, hb⟩
          · rw [if_neg (by simpa using hb)] at h2
            exact Or.inl h2
        · exact Or.inr ⟨b2, List.mem_cons_of_mem _ hb2, hb2i, hb2n⟩
    rcases key dim none h with h2 | h2
    · simp at h2
    · exact h2

theorem mem_prepareReviews {rows : List InputRow} {dim : List BankRow} {rr : ReviewRow}
    (h : rr ∈ prepareReviews rows dim) :
    ∃ r ∈ rows, lookupBankId dim r.bank = some rr.bank_id ∧
      r.review_id.isSome = true ∧ r.review_text.isSome = true ∧ r.date.isSome = true ∧
      rr = ⟨r.review_id, rr.bank_id, r.review_text, r.rating, r.sentiment_label,
        r.sentiment_score, r.theme, r.date⟩ := by
  rw [prepareReviews, List.mem_filterMap] at h
  obtain ⟨r, hr, hfn⟩ := h
  refine ⟨r, hr, ?_⟩
  cases hl : lookupBankId dim r.bank with
  | none => rw [hl] at hfn; simp at hfn
  | some bid =>
    rw [hl, Option.some_bind] at hfn
    by_cases hc : (r.review_id.isSome && r.review_text.isSome && r.date.isSome) = true
    · rw [if_pos hc] at hfn
      obtain ⟨h1, h2, h3⟩ : r.review_id.isSome = true ∧ r.review_text.isSome = true ∧
          r.date.isSome = true := by
        simpa [Bool.and_eq_true, and_assoc] using hc
      obtain rfl := Option.some_inj.mp hfn
      exact ⟨rfl, h1, h2, h3, rfl⟩
    · rw [if_neg hc] at hfn
      simp at hfn

theorem enumFrom_length {α : Type} :
    ∀ (n : Nat) (l : List α), (enumFrom n l).length = l.length := by
  intro n l
  induction l generalizing n with
  | nil => rfl
  | cons a as ih => simp [enumFrom, ih]

theorem filterMap_length_all_some {α β : Type} :
    ∀ (l : List α) (fn : α → Option β), (∀ a ∈ l, (fn a).isSome = true) →
      (l.filterMap fn).length = l.length := by
  intro l fn
  induction l with
  | nil => intro _; rfl
  | cons a as ih =>
    intro h
    rw [List.filterMap_cons]
    cases hfa : fn a with
    | none =>
      have := h a (List.mem_cons_self _ _)
      rw [hfa] at this
      simp at this
    | some b =>
      simp only [List.length_cons]
      rw [ih (fun x hx => h x (List.mem_cons_of_mem _ hx))]

theorem bank_in_dim {rows : List InputRow} {r : InputRow} (hr : r ∈ rows) :
    ∃ b ∈ bankDim rows, b.bank_name = r.bank ∧ b.source = r.source := by
  have hp : (r.bank, r.source) ∈ rows.map (fun r => (r.bank, r.source)) :=
    List.mem_map.mpr ⟨r, hr, rfl⟩
  have hd : (r.bank, r.source) ∈ dedupFS (rows.map (fun r => (r.bank, r.source))) :=
    mem_dedupFS.mpr hp
  rw [← bankDim_pairs, List.mem_map] at hd
  obtain ⟨b, hb, hbe⟩ := hd
  exact ⟨b, hb, congrArg Prod.fst hbe, congrArg Prod.snd hbe⟩

/-- Claim C3: every review row persisted by the bulk load references an
existing bank-dimension row (its `bank_id` is the id of an inserted bank
row) and has a valid (parseable) date — rows failing either check are
excluded by the `dropna` filters and never appear in the inserted
reviews. -/
theorem c3_referential_and_date_integrity (now : Nat) (f : InputFrame) (rr : ReviewRow)
    (h : rr ∈ insertedReviews (insert_data now f)) :
    (∃ b ∈ insertedBanks (insert_data now f), b.bank_id = rr.bank_id) ∧
    rr.date.isSome = true := by
  by_cases he : f.rows.isEmpty
  · rw [insert_data, if_pos he] at h
    simp [insertedReviews] at h
  · have hne : f.rows ≠ [] := by simpa using he
    rw [insertedReviews_insert_data hne] at h
    rw [insertedBanks_insert_data hne]
    obtain ⟨r, _, hlk, _, _, hdate, hrr⟩ := mem_prepareReviews h
    obtain ⟨b, hb, hbid, _⟩ := lookupBankId_mem hlk
    refine ⟨⟨b, hb, hbid⟩, ?_⟩
    rw [hrr]
    exact hdate

/-- Claim C4: for a non-empty dataset the load derives the bank dimension
as exactly the distinct (bank_name, source) pairs of the dataset in
first-seen order (`specFirstSeen` is the spec-worded construction: fold
left, appending each pair not seen before), with no duplicates, containing
exactly the dataset's pairs; surrogate ids are 1, 2, 3, ... in that order;
and the banks insertion is the first emitted database event, with every
later event a review-chunk insertion. -/
theorem c4_bank_dimension (now : Nat) (f : InputFrame) (h : f.rows ≠ []) :
    ((insertedBanks (insert_data now f)).map (fun b => (b.bank_name, b.source)) =
        specFirstSeen ((fillDefaults now f).map (fun r => (r.bank, r.source)))) ∧
    ((insertedBanks (insert_data now f)).map (fun b => (b.bank_name, b.source))).Nodup ∧
    (∀ p, p ∈ (insertedBanks (insert_data now f)).map (fun b => (b.bank_name, b.source)) ↔
        p ∈ (fillDefaults now f).map (fun r => (r.bank, r.source))) ∧
    ((insertedBanks (insert_data now f)).map BankRow.bank_id =
        List.range' 1 (insertedBanks (insert_data now f)).length) ∧
    ((insert_data now f).head? = some (DbEvent.banks (insertedBanks (insert_data now f)))) ∧
    (∀ e ∈ (insert_data now f).tail, ∃ rs, e = DbEvent.reviewChunk rs) := by
  have hb := @insertedBanks_insert_data now f h
  refine ⟨?_, ?_, ?_, ?_, ?_, ?_⟩
  · rw [hb, bankDim_pairs, specFirstSeen_eq_dedupFS]
  · rw [hb, bankDim_pairs]
    exact nodup_dedupFS _
  · intro p
    rw [hb, bankDim_pairs, mem_dedupFS]
  · rw [hb, bankDim_ids]
    congr 1
    rw [bankDim, List.length_map, enumFrom_length]
  · rw [hb, insert_data, if_neg (by simpa using h)]
    rfl
  · intro e hee
    rw [insert_data, if_neg (by simpa using h)] at hee
    rw [List.tail_cons, List.mem_map] at hee
    obtain ⟨rs, _, hrs⟩ := hee
    exact ⟨rs, hrs.symm⟩

/-- Claim C10: a non-empty dataset whose frame lacks all optional
enrichment columns (`source`, `date`, `sentiment_label`,
`sentiment_score`, `theme`) has no row excluded for that reason: every row
(with the required fields present) is persisted, review rows carry the
defaults NEUTRAL / 0.0 / General and the current day as date, and every
bank row carries source 'Google Play Store'. -/
theorem c10_missing_columns_defaults (now : Nat) (rows : List InputRow) (hne : rows ≠ [])
    (hreq : ∀ r ∈ rows, r.bank.isSome = true ∧ r.review_id.isSome = true ∧
      r.review_text.isSome = true) :
    (insertedReviews (insert_data now ⟨rows, false, false, false, false, false⟩)).length =
      rows.length ∧
    (∀ rr ∈ insertedReviews (insert_data now ⟨rows, false, false, false, false, false⟩),
      rr.sentiment_label = "NEUTRAL" ∧ rr.sentiment_score = 0 ∧ rr.theme = "General" ∧
      rr.date = some now) ∧
    (∀ b ∈ insertedBanks (insert_data now ⟨rows, false, false, false, false, false⟩),
      b.source = "Google Play Store") := by
  set f : InputFrame := ⟨rows, false, false, false, false, false⟩ with hf
  have hfr : f.rows = rows := rfl
  have hne2 : f.rows ≠ [] := by rw [hfr]; exact hne
  have hfill : ∀ r2 ∈ fillDefaults now f, r2.bank.isSome = true ∧
      r2.review_id.isSome = true ∧ r2.review_text.isSome = true ∧
      r2.source = "Google Play Store" ∧ r2.date = some now ∧
      r2.sentiment_label = "NEUTRAL" ∧ r2.sentiment_score = 0 ∧ r2.theme = "General" := by
    intro r2 hr2
    rw [fillDefaults, List.mem_map] at hr2
    obtain ⟨r, hr, hre⟩ := hr2
    obtain ⟨h1, h2, h3⟩ := hreq r hr
    rw [← hre]
    exact ⟨h1, h2, h3, rfl, rfl, rfl, rfl, rfl⟩
  refine ⟨?_, ?_, ?_⟩
  · rw [insertedReviews_insert_data hne2, prepareReviews]
    rw [filterMap_length_all_some]
    · rw [fillDefaults, List.length_map, hfr]
    · intro r2 hr2
      obtain ⟨h1, h2, h3, _, hd, _⟩ := hfill r2 hr2
      obtain ⟨name, hname⟩ := Option.isSome_iff_exists.mp h1
      obtain ⟨b, hbdim, hbname, _⟩ := bank_in_dim hr2
      have hlk : (lookupBankId (bankDim (fillDefaults now f)) r2.bank).isSome = true := by
        rw [hname]
        exact lookupBankId_isSome ⟨b, hbdim, by rw [hbname, hname]⟩
      obtain ⟨bid, hbid⟩ := Option.isSome_iff_exists.mp hlk
      rw [hbid, Option.some_bind, if_pos (by simp [h2, h3, hd])]
      rfl
  · intro rr hrr
    rw [insertedReviews_insert_data hne2] at hrr
    obtain ⟨r2, hr2, _, _, _, _, hrre⟩ := mem_prepareReviews hrr
    obtain ⟨_, _, _, _, hd, hl, hs, ht⟩ := hfill r2 hr2
    rw [hrre]
    exact ⟨hl, hs, ht, hd⟩
  · intro b hbm
    rw [insertedBanks_insert_data hne2] at hbm
    have hpp : (b.bank_name, b.source) ∈
        (fillDefaults now f).map (fun r => (r.bank, r.source)) := by
      rw [← mem_dedupFS, ← bankDim_pairs]
      exact List.mem_map.mpr ⟨b, hbm, rfl⟩
    rw [List.mem_map] at hpp
    obtain ⟨r2, hr2, hre⟩ := hpp
    obtain ⟨_, _, _, hsrc, _⟩ := hfill r2 hr2
    rw [← hsrc]
    exact (congrArg Prod.snd hre).symm

/-- Witness for C3 at a concrete one-row dataset. -/
theorem c3_referential_and_date_integrity_witness :
    (∃ b ∈ insertedBanks (insert_data 3
        ⟨[⟨some "A", some "t", 5, some "r1", "GP", some 7, "POS", 0, "T"⟩],
          true, true, true, true, true⟩),
      b.bank_id = (⟨some "r1", 1, some "t", 5, "POS", 0, "T", some 7⟩ : ReviewRow).bank_id) ∧
    (⟨some "r1", 1, some "t", 5, "POS", 0, "T", some 7⟩ : ReviewRow).date.isSome = true :=
  c3_referential_and_date_integrity 3
    ⟨[⟨some "A", some "t", 5, some "r1", "GP", some 7, "POS", 0, "T"⟩],
      true, true, true, true, true⟩
    ⟨some "r1", 1, some "t", 5, "POS", 0, "T", some 7⟩ (by decide)

/-- Witness for C4 at a concrete one-row dataset: the banks insertion is
the first emitted event. -/
theorem c4_bank_dimension_witness :
    (insert_data 3 ⟨[⟨some "A", some "t", 5, some "r1", "GP", some 7, "POS", 0, "T"⟩],
        true, true, true, true, true⟩).head? =
      some (DbEvent.banks (insertedBanks (insert_data 3
        ⟨[⟨some "A", some "t", 5, some "r1", "GP", some 7, "POS", 0, "T"⟩],
          true, true, true, true, true⟩))) :=
  (c4_bank_dimension 3
    ⟨[⟨some "A", some "t", 5, some "r1", "GP", some 7, "POS", 0, "T"⟩],
      true, true, true, true, true⟩ (by decide)).2.2.2.2.1

/-- Witness for C10 at a concrete one-row dataset with all optional
columns absent: the single row is persisted. -/
theorem c10_missing_columns_defaults_witness :
    (insertedReviews (insert_data 3
      ⟨[⟨some "A", some "t", 5, some "r1", "junk", none, "x", 1, "y"⟩],
        false, false, false, false, false⟩)).length =
    [(⟨some "A", some "t", 5, some "r1", "junk", none, "x", 1, "y"⟩ : InputRow)].length :=
  (c10_missing_columns_defaults 3
    [⟨some "A", some "t", 5, some "r1", "junk", none, "x", 1, "y"⟩]
    (by decide) (by decide)).1
